import Mathlib

/-!
# Verification of the `noisy` Gaussian Thompson-sampling bandit

Shallow embedding of `src/examples/simple_lts.py` (class `LTS`): per-arm
Normal beliefs `(mean, standard deviation)` over `ℝ`, a `select` operation
that picks the arm with the largest sampled value via Python's first-max
`max(enumerate(arms), key=...)`, and a conjugate Normal-Normal `update`.

Python floats are idealised as real numbers.  The pseudorandom Gaussian
draws consumed by `select` (`random.gauss(*x[1])`, one fresh draw per arm,
in enumeration order) are abstracted as an externally supplied family
`samples : ℕ → ℝ` giving the value drawn for the arm at each index.
Python exceptions are modelled with `Except PyError`.
-/

/-- Python exception kinds the embedded operations can raise. -/
inductive PyError where
  | valueError
  | typeError
  | indexError
  | invalidArgument
deriving DecidableEq, Repr

/-- The mutable state of a `LTS` object: the list `self._arms` of
`(mean, sd)` beliefs, `self._observation_noise`, and
`self._last_arm_pulled` (`None` before the first selection). -/
structure LTS where
  arms : List (ℝ × ℝ)
  observation_noise : ℝ
  last_arm_pulled : Option ℕ

/-- Python's `max(l, key=key)`: scans the list keeping the current
maximum, replacing it only on a strictly greater key, hence it returns
the FIRST element attaining the maximal key; raises `ValueError`
(here: `none`) on an empty list. -/
def maxByFirst {α β : Type*} [LinearOrder β] (key : α → β) : List α → Option α
  | [] => none
  | x :: xs => some (xs.foldl (fun best y => if key y > key best then y else best) x)

/-- `LTS.__init__(N, init_mu, init_sd, observation_noise)`:
`self._arms = [(init_mu, init_sd) for _ in range(0, N)]` (so `max N 0`
identical arms — empty for `N ≤ 0`), stores the noise, and sets
`self._last_arm_pulled = None`.  The source performs no argument
validation, so construction never raises; the `Except` wrapper makes
that absence of failure statable. -/
def LTS.init (N : ℤ) (init_mu init_sd observation_noise : ℝ) : Except PyError LTS :=
  Except.ok
    { arms := List.replicate N.toNat (init_mu, init_sd)
      observation_noise := observation_noise
      last_arm_pulled := none }

/-- `LTS.select(self)`:
`self._last_arm_pulled = max(enumerate(self._arms), key=lambda x: random.gauss(*x[1]))[0]`,
then returns that index.  The Gaussian draw for the arm enumerated at
index `x[0]` is the externally supplied `samples x.1`.  On an empty arm
list Python's `max` raises `ValueError`. -/
noncomputable def LTS.select (s : LTS) (samples : ℕ → ℝ) : Except PyError (LTS × ℕ) :=
  match maxByFirst (fun x => samples x.1) s.arms.enum with
  | none => Except.error PyError.valueError
  | some p => Except.ok ({ s with last_arm_pulled := some p.1 }, p.1)

/-- The body of `LTS.update` acting on one arm belief: with
`arm_variance = sd²` and `ob_variance = observation_noise²`,
`mu = (arm_variance*reward + ob_variance*arm_mean) / (arm_variance + ob_variance)`,
`var = arm_variance*ob_variance / (arm_variance + ob_variance)`,
`sd = math.sqrt(var)`. -/
noncomputable def updateArm (observation_noise : ℝ) (arm : ℝ × ℝ) (reward : ℝ) : ℝ × ℝ :=
  let arm_mean := arm.1
  let arm_variance := arm.2 * arm.2
  let ob_variance := observation_noise * observation_noise
  let mu := (arm_variance * reward + ob_variance * arm_mean) / (arm_variance + ob_variance)
  let var := arm_variance * ob_variance / (arm_variance + ob_variance)
  let sd := Real.sqrt var
  (mu, sd)

/-- `LTS.update(self, reward)`: reads `self._arms[self._last_arm_pulled]`
(raising `TypeError` when the index is still `None`, `IndexError` when it
is out of range) and overwrites that entry with the conjugate posterior
belief computed by `updateArm`.  `self._last_arm_pulled` is left set. -/
noncomputable def LTS.update (s : LTS) (reward : ℝ) : Except PyError LTS :=
  match s.last_arm_pulled with
  | none => Except.error PyError.typeError
  | some i =>
    match s.arms.get? i with
    | none => Except.error PyError.indexError
    | some arm =>
      Except.ok { s with arms := s.arms.set i (updateArm s.observation_noise arm reward) }

/-- One external call on a bandit: a `select` (with its family of fresh
Gaussian draws) or an `update` with an observed reward. -/
inductive Op where
  | select (samples : ℕ → ℝ)
  | update (reward : ℝ)

/-- Run one operation against the state. -/
noncomputable def LTS.step (s : LTS) : Op → Except PyError LTS
  | Op.select samples => (LTS.select s samples).map Prod.fst
  | Op.update r => LTS.update s r

/-- Run a sequence of operations against the state, stopping at the
first raised exception. -/
noncomputable def LTS.run (s : LTS) : List Op → Except PyError LTS
  | [] => Except.ok s
  | op :: ops =>
    match LTS.step s op with
    | Except.error e => Except.error e
    | Except.ok s' => LTS.run s' ops

/-! ## The first-max scan underlying `select` -/

/-- Projecting the first-max fold over an indexed list onto its indices:
when the key only looks at the index, the chosen element's index is the
first-max fold over the list of indices. -/
theorem fst_foldl_pickMax {α : Type*} (k : ℕ → ℝ) (xs : List (ℕ × α)) (b : ℕ × α) :
    (xs.foldl (fun best y => if k y.1 > k best.1 then y else best) b).1
      = (xs.map Prod.fst).foldl (fun best j => if k j > k best then j else best) b.1 := by
  induction xs generalizing b with
  | nil => rfl
  | cons x xs ih =>
    simp only [List.foldl_cons, List.map_cons, ih]
    rw [apply_ite Prod.fst]

/-- Invariant of the first-max scan over a contiguous index range: the
running best stays in range, dominates every index seen so far, and
strictly dominates every smaller index. -/
theorem foldl_pickMax_range'_spec (k : ℕ → ℝ) :
    ∀ (m s b : ℕ), b < s → (∀ j, j < s → k j ≤ k b) → (∀ j, j < b → k j < k b) →
      (List.range' s m).foldl (fun best j => if k j > k best then j else best) b < s + m ∧
      (∀ j, j < s + m →
        k j ≤ k ((List.range' s m).foldl (fun best j => if k j > k best then j else best) b)) ∧
      (∀ j, j < (List.range' s m).foldl (fun best j => if k j > k best then j else best) b →
        k j < k ((List.range' s m).foldl (fun best j => if k j > k best then j else best) b)) := by
  intro m
  induction m with
  | zero => intro s b hb hle hlt; simpa using ⟨hb, hle, hlt⟩
  | succ m ih =>
    intro s b hb hle hlt
    rw [List.range'_succ s m 1, List.foldl_cons]
    have harith : s + (m + 1) = (s + 1) + m := by omega
    rw [harith]
    by_cases hgt : k s > k b
    · rw [if_pos hgt]
      exact ih (s + 1) s (by omega)
        (fun j hj => by
          rcases Nat.lt_succ_iff_lt_or_eq.mp hj with h | h
          · exact le_of_lt (lt_of_le_of_lt (hle j h) hgt)
          · exact le_of_eq (by rw [h]))
        (fun j hj => lt_of_le_of_lt (hle j hj) hgt)
    · rw [if_neg hgt]
      exact ih (s + 1) b (by omega)
        (fun j hj => by
          rcases Nat.lt_succ_iff_lt_or_eq.mp hj with h | h
          · exact hle j h
          · rw [h]; exact le_of_not_lt hgt)
        hlt

/-- Full behaviour of `select` on a non-empty arm list, as a function of
the supplied per-arm draws: it succeeds, records the returned index, and
that index is the first-max index of the draws. -/
theorem LTS.select_spec (st : LTS) (samples : ℕ → ℝ) (h : st.arms ≠ []) :
    ∃ i, LTS.select st samples = Except.ok ({ st with last_arm_pulled := some i }, i) ∧
      i < st.arms.length ∧ (∀ j, j < st.arms.length → samples j ≤ samples i) ∧
      ∀ j, j < i → samples j < samples i := by
  obtain ⟨arms, noise, last⟩ := st
  cases arms with
  | nil => exact absurd rfl h
  | cons a rest =>
    have henum : (a :: rest).enum = (0, a) :: rest.enumFrom 1 := rfl
    refine ⟨((rest.enumFrom 1).foldl
      (fun best y => if samples y.1 > samples best.1 then y else best) (0, a)).1, ?_, ?_⟩
    · simp only [LTS.select, henum, maxByFirst]
    · rw [fst_foldl_pickMax samples, List.enumFrom_map_fst 1 rest]
      have := foldl_pickMax_range'_spec samples rest.length 1 0 (by omega)
        (fun j hj => by interval_cases j; exact le_refl _)
        (fun j hj => absurd hj (Nat.not_lt_zero j))
      simpa [List.length_cons, Nat.add_comm 1 rest.length] using this

/-! ## C1: the update formula -/

/-- C1: for every bandit state and reward, `update` replaces the
last-selected arm's belief `(μ, σ)` with the Normal-Normal conjugate
posterior: mean `(σ²·r + ν²·μ)/(σ² + ν²)` and standard deviation
`√((σ²·ν²)/(σ² + ν²))`, where `ν` is the observation noise. -/
theorem LTS.update_posterior_formula (s : LTS) (r : ℝ) (i : ℕ) (μ σ : ℝ)
    (hlast : s.last_arm_pulled = some i) (harm : s.arms.get? i = some (μ, σ)) :
    s.update r = Except.ok (LTS.mk
      (s.arms.set i
        ((σ ^ 2 * r + s.observation_noise ^ 2 * μ) / (σ ^ 2 + s.observation_noise ^ 2),
         Real.sqrt ((σ ^ 2 * s.observation_noise ^ 2) / (σ ^ 2 + s.observation_noise ^ 2))))
      s.observation_noise s.last_arm_pulled) := by
  simp only [LTS.update, hlast, harm, updateArm, pow_two]

/-- Witness for C1 at the spec's scenario state: one arm `(3.5, 3.0)`,
noise `0.1`, last selected arm `0`, reward `5`. -/
theorem LTS.update_posterior_formula_witness :
    (LTS.mk [((3.5 : ℝ), 3)] 0.1 (some 0)).update 5 = Except.ok (LTS.mk
      ([((3.5 : ℝ), 3)].set 0
        (((3 : ℝ) ^ 2 * 5 + (0.1 : ℝ) ^ 2 * 3.5) / ((3 : ℝ) ^ 2 + (0.1 : ℝ) ^ 2),
         Real.sqrt (((3 : ℝ) ^ 2 * (0.1 : ℝ) ^ 2) / ((3 : ℝ) ^ 2 + (0.1 : ℝ) ^ 2))))
      0.1 (some 0)) :=
  LTS.update_posterior_formula (LTS.mk [((3.5 : ℝ), 3)] 0.1 (some 0)) 5 0 3.5 3 rfl rfl

/-! ## C7: construction performs no validation -/

/-- C7 counterexample: constructing with `N = 0`, `init_sd = -1` and
`observation_noise = -1` violates every stated precondition, yet the
constructor succeeds (the source has no validation), so the claimed
`InvalidArgument` failure does not happen. -/
theorem LTS.init_no_failure_counterexample :
    LTS.init 0 (3.5 : ℝ) (-1) (-1)
        = Except.ok { arms := [], observation_noise := -1, last_arm_pulled := none } ∧
      (LTS.init 0 (3.5 : ℝ) (-1) (-1)).isOk = true :=
  ⟨rfl, rfl⟩

/-- C7 amended: construction never fails; for any arguments it returns a
state with `max N 0` arms, each with belief `(init_mean, init_sd)`, the
given observation noise, and no arm selected. -/
theorem LTS.init_total (N : ℤ) (init_mu init_sd observation_noise : ℝ) :
    LTS.init N init_mu init_sd observation_noise = Except.ok
      { arms := List.replicate N.toNat (init_mu, init_sd)
        observation_noise := observation_noise
        last_arm_pulled := none } :=
  rfl

/-! ## C2: select is the first-max of the sampled values -/

/-- C2: on a non-empty arm list, `select` returns the index of the
maximum sampled value; among arms attaining exactly that maximum it
returns the lowest index; in particular, identical samples for all arms
give index `0`. -/
theorem LTS.select_argmax_first (st : LTS) (samples : ℕ → ℝ) (h : st.arms ≠ []) :
    ∃ i, LTS.select st samples = Except.ok ({ st with last_arm_pulled := some i }, i) ∧
      i < st.arms.length ∧
      (∀ j, j < st.arms.length → samples j ≤ samples i) ∧
      (∀ j, j < st.arms.length → samples j = samples i → i ≤ j) ∧
      ((∀ j, samples j = samples 0) → i = 0) := by
  obtain ⟨i, hsel, hlt, hmax, hfirst⟩ := LTS.select_spec st samples h
  refine ⟨i, hsel, hlt, hmax, ?_, ?_⟩
  · intro j _ hj
    by_contra hij
    exact absurd hj (ne_of_lt (hfirst j (lt_of_not_le hij)))
  · intro hconst
    by_contra hi0
    have h0i : 0 < i := Nat.pos_of_ne_zero hi0
    exact absurd (hconst i) (ne_of_gt (hfirst 0 h0i))

/-- Witness for C2: three arms, a sampler forced to return `0` for every
arm; `select` returns index `0`. -/
theorem LTS.select_argmax_first_witness :
    ∃ i, (LTS.mk [((0 : ℝ), 1), ((0 : ℝ), 1), ((0 : ℝ), 1)] 1 none).select (fun _ => (0 : ℝ))
        = Except.ok ({ LTS.mk [((0 : ℝ), 1), ((0 : ℝ), 1), ((0 : ℝ), 1)] 1 none with
            last_arm_pulled := some i }, i) ∧
      i < (LTS.mk [((0 : ℝ), 1), ((0 : ℝ), 1), ((0 : ℝ), 1)] 1 none).arms.length ∧
      (∀ j, j < (LTS.mk [((0 : ℝ), 1), ((0 : ℝ), 1), ((0 : ℝ), 1)] 1 none).arms.length →
        (fun _ => (0 : ℝ)) j ≤ (fun _ => (0 : ℝ)) i) ∧
      (∀ j, j < (LTS.mk [((0 : ℝ), 1), ((0 : ℝ), 1), ((0 : ℝ), 1)] 1 none).arms.length →
        (fun _ => (0 : ℝ)) j = (fun _ => (0 : ℝ)) i → i ≤ j) ∧
      ((∀ j : ℕ, (fun _ => (0 : ℝ)) j = (fun _ => (0 : ℝ)) 0) → i = 0) :=
  LTS.select_argmax_first (LTS.mk [((0 : ℝ), 1), ((0 : ℝ), 1), ((0 : ℝ), 1)] 1 none)
    (fun _ => (0 : ℝ)) (by simp)

/-! ## C8: select returns a valid index and records it -/

/-- C8: with `N ≥ 1` arms, `select` succeeds with an index in `[0, N)`
and records that index in `last_arm_pulled`, leaving the arm beliefs and
the observation noise untouched. -/
theorem LTS.select_valid_index (st : LTS) (samples : ℕ → ℝ) (N : ℕ)
    (hN : st.arms.length = N) (hpos : 1 ≤ N) :
    ∃ s' i, LTS.select st samples = Except.ok (s', i) ∧ i < N ∧
      s'.last_arm_pulled = some i ∧ s'.arms = st.arms ∧
      s'.observation_noise = st.observation_noise := by
  have hne : st.arms ≠ [] := by
    intro hnil
    rw [hnil] at hN
    simp at hN
    omega
  obtain ⟨i, hsel, hlt, -, -⟩ := LTS.select_spec st samples hne
  exact ⟨{ st with last_arm_pulled := some i }, i, hsel, hN ▸ hlt, rfl, rfl, rfl⟩

/-- Witness for C8: a single-arm bandit; `select` returns index `0` and
records it. -/
theorem LTS.select_valid_index_witness :
    ∃ s' i, (LTS.mk [((3.5 : ℝ), 3)] 0.1 none).select (fun _ => (0 : ℝ))
        = Except.ok (s', i) ∧ i < 1 ∧
      s'.last_arm_pulled = some i ∧ s'.arms = (LTS.mk [((3.5 : ℝ), 3)] 0.1 none).arms ∧
      s'.observation_noise = (LTS.mk [((3.5 : ℝ), 3)] 0.1 none).observation_noise :=
  LTS.select_valid_index (LTS.mk [((3.5 : ℝ), 3)] 0.1 none) (fun _ => (0 : ℝ)) 1
    (by simp) (le_refl 1)

/-! ## C3: one update strictly shrinks the standard deviation -/

/-- C3: for any arm belief with `σ > 0` and any `observation_noise > 0`,
the standard deviation produced by one arm update is strictly smaller
than the prior one, for every reward. -/
theorem updateArm_sd_strict_lt (noise μ σ r : ℝ) (hσ : 0 < σ) (hn : 0 < noise) :
    (updateArm noise (μ, σ) r).2 < σ := by
  have hv : 0 < σ * σ := mul_pos hσ hσ
  have hov : 0 < noise * noise := mul_pos hn hn
  have hd : 0 < σ * σ + noise * noise := by linarith
  simp only [updateArm]
  rw [Real.sqrt_lt' hσ, div_lt_iff hd]
  nlinarith [mul_pos hv hv]

/-- Witness for C3 at the spec's scenario: prior `(3.5, 3.0)`, noise
`0.1`, reward `5`; the posterior standard deviation drops below `3`. -/
theorem updateArm_sd_strict_lt_witness :
    (updateArm 0.1 ((3.5 : ℝ), 3) 5).2 < 3 :=
  updateArm_sd_strict_lt 0.1 3.5 3 5 (by norm_num) (by norm_num)

/-! ## C4: the posterior mean lies between prior mean and reward -/

/-- C4: with `σ > 0` and `observation_noise > 0`, the mean produced by
one arm update lies strictly between the prior mean `μ` and the reward
`r` whenever `μ ≠ r`, and equals `μ` (hence both) when `μ = r`. -/
theorem updateArm_mean_between (noise μ σ r : ℝ) (hσ : 0 < σ) (hn : 0 < noise) :
    (μ ≠ r → min μ r < (updateArm noise (μ, σ) r).1 ∧ (updateArm noise (μ, σ) r).1 < max μ r) ∧
      (μ = r → (updateArm noise (μ, σ) r).1 = μ) := by
  have hv : 0 < σ * σ := mul_pos hσ hσ
  have hov : 0 < noise * noise := mul_pos hn hn
  have hd : 0 < σ * σ + noise * noise := by linarith
  simp only [updateArm]
  constructor
  · intro hne
    rcases lt_or_gt_of_ne hne with hlt | hgt
    · rw [min_eq_left (le_of_lt hlt), max_eq_right (le_of_lt hlt)]
      constructor
      · rw [lt_div_iff hd]; nlinarith
      · rw [div_lt_iff hd]; nlinarith
    · rw [min_eq_right (le_of_lt hgt), max_eq_left (le_of_lt hgt)]
      constructor
      · rw [lt_div_iff hd]; nlinarith
      · rw [div_lt_iff hd]; nlinarith
  · intro heq
    rw [heq, div_eq_iff (ne_of_gt hd)]
    ring

/-- Witness for C4: prior mean `3.5`, reward `5` (distinct), `σ = 3`,
noise `0.1`: the posterior mean lies strictly between `3.5` and `5`. -/
theorem updateArm_mean_between_witness :
    ((3.5 : ℝ) ≠ 5 → min (3.5 : ℝ) 5 < (updateArm 0.1 ((3.5 : ℝ), 3) 5).1 ∧
        (updateArm 0.1 ((3.5 : ℝ), 3) 5).1 < max (3.5 : ℝ) 5) ∧
      ((3.5 : ℝ) = 5 → (updateArm 0.1 ((3.5 : ℝ), 3) 5).1 = 3.5) :=
  updateArm_mean_between 0.1 3.5 3 5 (by norm_num) (by norm_num)

/-! ## C6: update writes exactly one arm -/

/-- C6: `update` rewrites only the arm indexed by `last_arm_pulled`
(with its conjugate posterior) and preserves every other arm's belief,
the number of arms, the observation noise, and the selection marker. -/
theorem LTS.update_frame (s : LTS) (r : ℝ) (i : ℕ) (arm : ℝ × ℝ)
    (hlast : s.last_arm_pulled = some i) (harm : s.arms.get? i = some arm) :
    ∃ s', s.update r = Except.ok s' ∧
      s'.arms.length = s.arms.length ∧
      s'.observation_noise = s.observation_noise ∧
      s'.last_arm_pulled = s.last_arm_pulled ∧
      s'.arms.get? i = some (updateArm s.observation_noise arm r) ∧
      ∀ j, j ≠ i → s'.arms.get? j = s.arms.get? j := by
  have hi : i < s.arms.length := by
    by_contra hge
    push_neg at hge
    rw [List.get?_eq_none.mpr hge] at harm
    cases harm
  refine ⟨{ s with arms := s.arms.set i (updateArm s.observation_noise arm r) },
    ?_, ?_, rfl, rfl, ?_, ?_⟩
  · simp only [LTS.update, hlast, harm]
  · simp
  · exact List.get?_set_eq_of_lt _ hi
  · exact fun j hj => List.get?_set_ne _ _ (Ne.symm hj)

/-- Witness for C6: a two-arm bandit with arm `0` last selected; the
update touches only arm `0` and leaves arm `1` and the scalars alone. -/
theorem LTS.update_frame_witness :
    ∃ s', (LTS.mk [((3.5 : ℝ), 3), ((1 : ℝ), 2)] 0.1 (some 0)).update 5 = Except.ok s' ∧
      s'.arms.length = (LTS.mk [((3.5 : ℝ), 3), ((1 : ℝ), 2)] 0.1 (some 0)).arms.length ∧
      s'.observation_noise
        = (LTS.mk [((3.5 : ℝ), 3), ((1 : ℝ), 2)] 0.1 (some 0)).observation_noise ∧
      s'.last_arm_pulled
        = (LTS.mk [((3.5 : ℝ), 3), ((1 : ℝ), 2)] 0.1 (some 0)).last_arm_pulled ∧
      s'.arms.get? 0 = some (updateArm
        (LTS.mk [((3.5 : ℝ), 3), ((1 : ℝ), 2)] 0.1 (some 0)).observation_noise ((3.5 : ℝ), 3) 5) ∧
      ∀ j, j ≠ 0 → s'.arms.get? j
        = (LTS.mk [((3.5 : ℝ), 3), ((1 : ℝ), 2)] 0.1 (some 0)).arms.get? j :=
  LTS.update_frame (LTS.mk [((3.5 : ℝ), 3), ((1 : ℝ), 2)] 0.1 (some 0)) 5 0 ((3.5 : ℝ), 3)
    rfl rfl

/-! ## C5: standard deviations stay positive -/

/-- The posterior standard deviation is positive whenever the prior one
and the observation noise are. -/
theorem updateArm_sd_pos (noise : ℝ) (arm : ℝ × ℝ) (r : ℝ)
    (h1 : 0 < arm.2) (h2 : 0 < noise) : 0 < (updateArm noise arm r).2 := by
  simp only [updateArm]
  rw [Real.sqrt_pos]
  exact div_pos (mul_pos (mul_pos h1 h1) (mul_pos h2 h2)) (by nlinarith)

/-- One `step` preserves positivity of every arm's standard deviation,
and never changes the observation noise. -/
theorem LTS.step_preserves_sd_pos (s s' : LTS) (op : Op)
    (hn : 0 < s.observation_noise) (hinv : ∀ a ∈ s.arms, 0 < a.2)
    (hstep : s.step op = Except.ok s') :
    (∀ a ∈ s'.arms, 0 < a.2) ∧ s'.observation_noise = s.observation_noise := by
  cases op with
  | select samples =>
    cases hm : maxByFirst (fun x => samples x.1) s.arms.enum with
    | none => simp [LTS.step, LTS.select, hm, Except.map] at hstep
    | some p =>
      simp only [LTS.step, LTS.select, hm, Except.map] at hstep
      cases hstep
      exact ⟨hinv, rfl⟩
  | update r =>
    cases hl : s.last_arm_pulled with
    | none => simp [LTS.step, LTS.update, hl] at hstep
    | some i =>
      cases hg : s.arms[i]? with
      | none => simp [LTS.step, LTS.update, hl, hg] at hstep
      | some arm =>
        simp only [LTS.step, LTS.update, hl, List.get?_eq_getElem?, hg] at hstep
        cases hstep
        refine ⟨?_, rfl⟩
        intro a ha
        rcases List.mem_or_eq_of_mem_set ha with hmem | heq
        · exact hinv a hmem
        · rw [heq]
          exact updateArm_sd_pos s.observation_noise arm r (hinv arm (List.getElem?_mem hg)) hn

/-- A whole `run` preserves positivity of every arm's standard
deviation. -/
theorem LTS.run_preserves_sd_pos (ops : List Op) :
    ∀ s s' : LTS, 0 < s.observation_noise → (∀ a ∈ s.arms, 0 < a.2) →
      LTS.run s ops = Except.ok s' → ∀ a ∈ s'.arms, 0 < a.2 := by
  induction ops with
  | nil =>
    intro s s' _ hinv hrun
    cases hrun
    exact hinv
  | cons op ops ih =>
    intro s s' hn hinv hrun
    cases hstep : s.step op with
    | error e => rw [LTS.run, hstep] at hrun; cases hrun
    | ok s1 =>
      rw [LTS.run, hstep] at hrun
      obtain ⟨hinv1, hnoise1⟩ := LTS.step_preserves_sd_pos s s1 op hn hinv hstep
      exact ih s1 s' (hnoise1 ▸ hn) hinv1 hrun

/-- C5: under the construction preconditions `init_sd > 0` and
`observation_noise > 0`, every arm's standard deviation is positive
right after construction and stays positive after every sequence of
`select`/`update` operations. -/
theorem LTS.sd_pos_invariant (N : ℤ) (init_mu init_sd noise : ℝ) (s0 s : LTS) (ops : List Op)
    (hsd : 0 < init_sd) (hn : 0 < noise)
    (hinit : LTS.init N init_mu init_sd noise = Except.ok s0)
    (hrun : LTS.run s0 ops = Except.ok s) :
    (∀ a ∈ s0.arms, 0 < a.2) ∧ ∀ a ∈ s.arms, 0 < a.2 := by
  have hs0 : s0 = LTS.mk (List.replicate N.toNat (init_mu, init_sd)) noise none := by
    cases hinit
    rfl
  have hinv0 : ∀ a ∈ s0.arms, 0 < a.2 := by
    intro a ha
    rw [hs0] at ha
    rw [List.eq_of_mem_replicate ha]
    exact hsd
  have hn0 : 0 < s0.observation_noise := by rw [hs0]; exact hn
  exact ⟨hinv0, LTS.run_preserves_sd_pos ops s0 s hn0 hinv0 hrun⟩

/-- Witness for C5: a one-arm bandit built with `init_sd = 3 > 0`,
noise `0.1 > 0`, run through one `select` followed by one `update`. -/
theorem LTS.sd_pos_invariant_witness :
    (∀ a ∈ (LTS.mk [((3.5 : ℝ), 3)] 0.1 none).arms, 0 < a.2) ∧
      ∀ a ∈ (LTS.mk ([((3.5 : ℝ), 3)].set 0 (updateArm 0.1 ((3.5 : ℝ), 3) 5)) 0.1
        (some 0)).arms, 0 < a.2 :=
  LTS.sd_pos_invariant 1 3.5 3 0.1
    (LTS.mk [((3.5 : ℝ), 3)] 0.1 none)
    (LTS.mk ([((3.5 : ℝ), 3)].set 0 (updateArm 0.1 ((3.5 : ℝ), 3) 5)) 0.1 (some 0))
    [Op.select (fun _ => (0 : ℝ)), Op.update 5]
    (by norm_num) (by norm_num) rfl rfl

/-! ## C9: repeated constant-reward updates converge -/

/-- Closed form for `n` repeated arm updates with a constant reward `r`:
writing `o = noise²`, `v = σ₀²` and `D n = o + n·v`, the belief after
`n` updates is mean `r + (μ₀ - r)·o / D n` and standard deviation
`√(v·o / D n)` (precision grows linearly in `n`). -/
theorem updateArm_iterate_closed_form (noise μ₀ σ₀ r : ℝ) (hσ : 0 < σ₀) (hn : 0 < noise) :
    ∀ n : ℕ, (fun p => updateArm noise p r)^[n] (μ₀, σ₀)
      = (r + (μ₀ - r) * (noise * noise) / (noise * noise + n * (σ₀ * σ₀)),
         Real.sqrt (σ₀ * σ₀ * (noise * noise) / (noise * noise + n * (σ₀ * σ₀)))) := by
  have hov : 0 < noise * noise := mul_pos hn hn
  have hv0 : 0 < σ₀ * σ₀ := mul_pos hσ hσ
  intro n
  induction n with
  | zero =>
    have h1 : r + (μ₀ - r) * (noise * noise) / (noise * noise) = μ₀ := by
      field_simp
    have h2 : Real.sqrt (σ₀ * σ₀ * (noise * noise) / (noise * noise)) = σ₀ := by
      rw [mul_div_assoc, div_self (ne_of_gt hov), mul_one, Real.sqrt_mul_self hσ.le]
    simp only [Function.iterate_zero, id_eq, Nat.cast_zero, zero_mul, add_zero, h1, h2]
  | succ n ih =>
    have hDn : (0 : ℝ) < noise * noise + n * (σ₀ * σ₀) := by positivity
    have hDn1 : (0 : ℝ) < noise * noise + ((n : ℝ) + 1) * (σ₀ * σ₀) := by positivity
    have hVn : (0 : ℝ) ≤ σ₀ * σ₀ * (noise * noise) / (noise * noise + n * (σ₀ * σ₀)) := by
      positivity
    rw [Function.iterate_succ_apply', ih]
    simp only [updateArm, Real.mul_self_sqrt hVn, Nat.cast_succ, Prod.mk.injEq]
    constructor
    · field_simp
      ring
    · congr 1
      field_simp
      ring
  
/-- C9: with `σ₀ > 0` and `observation_noise > 0`, repeatedly updating
one arm with a constant reward `r` brings its mean within any `ε > 0`
of `r` and its standard deviation within `ε` of `0` after finitely many
updates. -/
theorem updateArm_iterate_convergence (noise μ₀ σ₀ r ε : ℝ)
    (hσ : 0 < σ₀) (hn : 0 < noise) (hε : 0 < ε) :
    ∃ n : ℕ, |((fun p => updateArm noise p r)^[n] (μ₀, σ₀)).1 - r| < ε ∧
      |((fun p => updateArm noise p r)^[n] (μ₀, σ₀)).2 - 0| < ε := by
  have hov : 0 < noise * noise := mul_pos hn hn
  have hv0 : 0 < σ₀ * σ₀ := mul_pos hσ hσ
  obtain ⟨n, hnbig⟩ := exists_nat_gt
    ((max (|μ₀ - r| * (noise * noise) / ε) (σ₀ * σ₀ * (noise * noise) / (ε * ε))) / (σ₀ * σ₀))
  have hnv : max (|μ₀ - r| * (noise * noise) / ε) (σ₀ * σ₀ * (noise * noise) / (ε * ε))
      < n * (σ₀ * σ₀) := by
    rw [div_lt_iff hv0] at hnbig
    exact hnbig
  have hDn : (0 : ℝ) < noise * noise + n * (σ₀ * σ₀) := by positivity
  have h1 : |μ₀ - r| * (noise * noise) / ε < n * (σ₀ * σ₀) :=
    lt_of_le_of_lt (le_max_left _ _) hnv
  have h2 : σ₀ * σ₀ * (noise * noise) / (ε * ε) < n * (σ₀ * σ₀) :=
    lt_of_le_of_lt (le_max_right _ _) hnv
  rw [div_lt_iff hε] at h1
  have hε2 : (0 : ℝ) < ε * ε := mul_pos hε hε
  rw [div_lt_iff hε2] at h2
  refine ⟨n, ?_, ?_⟩
  · rw [updateArm_iterate_closed_form noise μ₀ σ₀ r hσ hn n]
    have : r + (μ₀ - r) * (noise * noise) / (noise * noise + n * (σ₀ * σ₀)) - r
        = (μ₀ - r) * (noise * noise) / (noise * noise + n * (σ₀ * σ₀)) := by ring
    rw [this, abs_div, abs_mul, abs_of_pos hov, abs_of_pos hDn, div_lt_iff hDn]
    nlinarith [mul_pos hε hov, abs_nonneg (μ₀ - r)]
  · rw [updateArm_iterate_closed_form noise μ₀ σ₀ r hσ hn n, sub_zero,
      abs_of_nonneg (Real.sqrt_nonneg _), Real.sqrt_lt' hε, div_lt_iff hDn]
    nlinarith [mul_pos hε2 hov]

/-- Witness for C9: prior `(0, 1)`, noise `1`, constant reward `1`,
tolerance `1`: some finite number of updates lands within it. -/
theorem updateArm_iterate_convergence_witness :
    ∃ n : ℕ, |((fun p => updateArm 1 p 1)^[n] ((0 : ℝ), 1)).1 - 1| < 1 ∧
      |((fun p => updateArm 1 p 1)^[n] ((0 : ℝ), 1)).2 - 0| < 1 :=
  updateArm_iterate_convergence 1 0 1 1 1 (by norm_num) (by norm_num) (by norm_num)

/-! ## C10: the scenario numbers -/

/-- C10 counterexample: with noise `0.1`, one `update(5.0)` on the arm
`(3.5, 3.0)` gives the exact mean `45.035 / 9.01 = 4.99833…`, which is
more than `0.0002` away from the spec's quoted `4.9986` — so the quoted
mean is wrong even at a full-last-digit tolerance, let alone under
correct 4-decimal rounding. -/
theorem updateArm_scenario_mean_not_4_9986 :
    (updateArm 0.1 ((3.5 : ℝ), 3) 5).1 = 45.035 / 9.01 ∧
      0.0002 < |(updateArm 0.1 ((3.5 : ℝ), 3) 5).1 - 4.9986| := by
  have hmu : (updateArm 0.1 ((3.5 : ℝ), 3) 5).1 = 45.035 / 9.01 := by
    simp only [updateArm]
    norm_num
  refine ⟨hmu, ?_⟩
  rw [hmu]
  have hneg : (45.035 / 9.01 : ℝ) - 4.9986 < -0.0002 := by norm_num
  calc (0.0002 : ℝ) < -((45.035 / 9.01 : ℝ) - 4.9986) := by linarith
    _ ≤ |(45.035 / 9.01 : ℝ) - 4.9986| := neg_le_abs _

/-- C10 amended: with noise `0.1`, one `update(5.0)` on the arm
`(3.5, 3.0)` yields new mean exactly `45.035 / 9.01 ≈ 4.9983` (not
`4.9986`) and new standard deviation `≈ 0.0999`, both within half a
unit of the fourth decimal place. -/
theorem updateArm_scenario_values :
    (updateArm 0.1 ((3.5 : ℝ), 3) 5).1 = 45.035 / 9.01 ∧
      |(updateArm 0.1 ((3.5 : ℝ), 3) 5).1 - 4.9983| < 0.00005 ∧
      |(updateArm 0.1 ((3.5 : ℝ), 3) 5).2 - 0.0999| < 0.00005 := by
  have hmu : (updateArm 0.1 ((3.5 : ℝ), 3) 5).1 = 45.035 / 9.01 := by
    simp only [updateArm]
    norm_num
  have hsd : (updateArm 0.1 ((3.5 : ℝ), 3) 5).2 = Real.sqrt (0.09 / 9.01) := by
    simp only [updateArm]
    norm_num
  refine ⟨hmu, ?_, ?_⟩
  · rw [hmu, abs_lt]
    constructor <;> norm_num
  · rw [hsd, abs_lt]
    have hlow : (0.0999 : ℝ) < Real.sqrt (0.09 / 9.01) :=
      (Real.lt_sqrt (by norm_num)).mpr (by norm_num)
    have hhigh : Real.sqrt (0.09 / 9.01) < (0.09995 : ℝ) := by
      rw [Real.sqrt_lt' (by norm_num)]
      norm_num
    constructor <;> linarith
